import Mathlib

/-!
# The initiator (`alice`) of the alternating token exchange

A shallow embedding of `alice.c`.  The function walks the turn indices
`0 .. N-1`; on an even index it reads into a cleared 8-byte buffer and
compares the buffer with the expected token by `strncmp`; on an odd index it
writes the token; it leaves the loop on the first failure, closes the
descriptor and returns `0`.

Conventions of the embedding.

* A byte is a natural number (the value of an `unsigned char`); `0` is NUL.
* A `char` array is the list of its bytes.  The array a token pointer `s[i]`
  points to is followed by its NUL terminator, which is not stored in the
  list: reading past the end of the list reads NUL.
* `int` is 32 bits wide and `size_t`, `ssize_t` are 64 bits wide (LP64).  The
  conversion to `int` keeps the low 32 bits (two's complement), as every
  mainstream compiler does; it is written `toInt`.
* `read`, `write` and `close` are the environment.  They are a deterministic
  machine over an arbitrary state type, so that a channel can answer
  according to everything it has been asked so far.
* Everything `alice` does to the outside world is recorded, in order, in one
  trace of events: the three system calls and `printf`.
* The responder `bob` is known through its test only; its loop is written
  down from the spec, over the same channels and events.
-/

set_option maxRecDepth 100000

namespace Exchange

/-! ## Data model -/

/-- The token table of `common.h`: the number of tokens `N`, the array `s` of
token pointers (each given by the `char` array it points to) and the array
`l` of token lengths (`size_t`).  The header is not among the sources, so the
table is a parameter of `alice`.  Only the indices below `N` are ever used. -/
structure Tokens where
  N : Nat
  s : Nat → List Nat
  l : Nat → Nat

/-- The system calls `alice` uses, as a deterministic machine over the channel
state `σ`.  `read c fd count` answers with the returned `ssize_t`, the bytes
it stored at the start of the buffer, and the next state; `write c fd buf
count` answers with the returned `ssize_t` and the next state. -/
structure Channel (σ : Type) where
  read : σ → Int → Nat → Int × List Nat × σ
  write : σ → Int → List Nat → Nat → Int × σ
  close : σ → Int → σ

/-- One observable action of `alice`, with the arguments of the call.  For
`printf` the argument is the string printed by the `%s` directive. -/
inductive Event where
  | read (fd : Int) (count : Nat)
  | write (fd : Int) (buf : List Nat) (count : Nat)
  | close (fd : Int)
  | printf (str : List Nat)
  deriving DecidableEq

/-! ## C library and language primitives -/

/-- The value of `sizeof(buf)` for `char buf[8]`. -/
def sizeofBuf : Nat := 8

/-- Conversion of an integer value to the 32-bit `int`. -/
def toInt (x : Int) : Int := (x + 2147483648) % 4294967296 - 2147483648

/-- Modelled from the spec: the macro `min` of `common.h`, which is not among
the sources; the spec calls the comparison length the minimum of the expected
token length and the buffer capacity. -/
def min (a b : Nat) : Nat := if a < b then a else b

/-- The call `memset(buf, c, n)` on an `n`-byte buffer: `n` copies of `c`. -/
def memset (n : Nat) (c : Nat) : List Nat := List.replicate n c

/-- The buffer after a `read` stored `data` at its start.  A `read` never
stores more than the buffer holds; the bytes it does not reach are kept. -/
def store (buf data : List Nat) : List Nat :=
  data.take buf.length ++ buf.drop (data.take buf.length).length

/-- The function `strncmp(a, b, n)`: compare at most `n` characters, stopping
at the first difference or after a NUL; the result is the difference of the
two characters at that point, and `0` when none differs. -/
def strncmp : List Nat → List Nat → Nat → Int
  | _, _, 0 => 0
  | a, b, n + 1 =>
    if a.headD 0 ≠ b.headD 0 then (a.headD 0 : Int) - (b.headD 0 : Int)
    else if a.headD 0 = 0 then 0
    else strncmp a.tail b.tail n

/-- The characters `printf` prints for `%s`: those before the first NUL. -/
def cstr (m : List Nat) : List Nat := m.takeWhile (fun c => c ≠ 0)

/-! ## The initiator -/

/-- What one pass through the loop body did: the channel state it left, the
events it produced, and whether it left the loop with `break`. -/
structure Turn (σ : Type) where
  chan : σ
  events : List Event
  brk : Bool

/-- The body of the `for` loop of `alice` at index `i`. -/
def turn {σ : Type} (ch : Channel σ) (t : Tokens) (fd : Int) (i : Nat) (c : σ) : Turn σ :=
  if i % 2 = 0 then
    let buf := memset sizeofBuf 0
    let rd := ch.read c fd sizeofBuf
    let r := toInt rd.1
    let buf := store buf rd.2.1
    if r = -1 ∨ strncmp buf (t.s i) (min (t.l i) sizeofBuf) ≠ 0 then
      ⟨rd.2.2, [Event.read fd sizeofBuf], true⟩
    else
      ⟨rd.2.2, [Event.read fd sizeofBuf, Event.printf (cstr (t.s i))], false⟩
  else
    let wr := ch.write c fd (t.s i) (t.l i)
    let r := toInt wr.1
    if toInt (t.l i) ≠ r then
      ⟨wr.2, [Event.write fd (t.s i) (t.l i)], true⟩
    else
      ⟨wr.2, [Event.write fd (t.s i) (t.l i)], false⟩

/-- The state of `alice` while the loop runs: the loop counter, the channel,
the events so far, and whether the loop was left with `break`. -/
structure State (σ : Type) where
  i : Nat
  chan : σ
  trace : List Event
  broke : Bool

/-- The `for` loop of `alice`.  The first argument is `N - i`, the number of
indices still ahead: at `0` the test `i < N` fails and the loop is over. -/
def aliceLoop {σ : Type} (ch : Channel σ) (t : Tokens) (fd : Int) : Nat → State σ → State σ
  | 0, st => st
  | k + 1, st =>
    let tr := turn ch t fd st.i st.chan
    if tr.brk then
      ⟨st.i, tr.chan, st.trace ++ tr.events, true⟩
    else
      aliceLoop ch t fd k ⟨st.i + 1, tr.chan, st.trace ++ tr.events, st.broke⟩

/-- The outcome of a call of `alice`: the returned `int`, the channel state
and the trace when it returns, the value of the loop counter when the loop
ended, and whether it ended with `break`. -/
structure Outcome (σ : Type) where
  ret : Int
  chan : σ
  trace : List Event
  i : Nat
  broke : Bool

/-- The function `alice`, called with a pointer to the descriptor `fd`, on a
channel in state `c`. -/
def alice {σ : Type} (ch : Channel σ) (t : Tokens) (fd : Int) (c : σ) : Outcome σ :=
  let st := aliceLoop ch t fd t.N ⟨0, c, [], false⟩
  ⟨0, ch.close st.chan fd, st.trace ++ [Event.close fd], st.i, st.broke⟩

/-! ## Observations on a trace -/

/-- The observation stream: the strings printed, in order. -/
def out (tr : List Event) : List (List Nat) :=
  tr.filterMap (fun e => match e with
    | Event.printf str => some str
    | _ => none)

/-- The channel operations of a trace, in order. -/
def ops (tr : List Event) : List Event :=
  tr.filter (fun e => match e with
    | Event.printf _ => false
    | _ => true)

/-- The bytes that reach the standard output: every printed string is
followed by one blank. -/
def stdout (tr : List Event) : List Nat :=
  (out tr).foldr (fun str acc => str ++ 32 :: acc) []

/-! ## The run, turn by turn -/

/-- The channel state in which turn `j` starts when every earlier turn was
carried out. -/
def chanAt {σ : Type} (ch : Channel σ) (t : Tokens) (fd : Int) (c : σ) : Nat → σ
  | 0 => c
  | j + 1 => (turn ch t fd j (chanAt ch t fd c j)).chan

/-- Turn `j` of the run that starts in channel state `c`. -/
def turnAt {σ : Type} (ch : Channel σ) (t : Tokens) (fd : Int) (c : σ) (j : Nat) : Turn σ :=
  turn ch t fd j (chanAt ch t fd c j)

/-- The answer of the channel to the `read` of the even turn `j`. -/
def readAt {σ : Type} (ch : Channel σ) (t : Tokens) (fd : Int) (c : σ) (j : Nat) :
    Int × List Nat × σ :=
  ch.read (chanAt ch t fd c j) fd sizeofBuf

/-- The answer of the channel to the `write` of the odd turn `j`. -/
def writeAt {σ : Type} (ch : Channel σ) (t : Tokens) (fd : Int) (c : σ) (j : Nat) : Int × σ :=
  ch.write (chanAt ch t fd c j) fd (t.s j) (t.l j)

/-- The buffer `alice` compares at the even turn `j`. -/
def bufAt {σ : Type} (ch : Channel σ) (t : Tokens) (fd : Int) (c : σ) (j : Nat) : List Nat :=
  store (memset sizeofBuf 0) (readAt ch t fd c j).2.1

/-- Turn `j` is reached: it is below `N` and no earlier turn left the loop. -/
@[reducible]
def Reached {σ : Type} (ch : Channel σ) (t : Tokens) (fd : Int) (c : σ) (j : Nat) : Prop :=
  j < t.N ∧ ∀ k, k < j → (turnAt ch t fd c k).brk = false

/-- The events of turn `j` when it does not leave the loop. -/
def passEvents (t : Tokens) (fd : Int) (j : Nat) : List Event :=
  if j % 2 = 0 then [Event.read fd sizeofBuf, Event.printf (cstr (t.s j))]
  else [Event.write fd (t.s j) (t.l j)]

/-- The events of turn `j` when it leaves the loop. -/
def failEvents (t : Tokens) (fd : Int) (j : Nat) : List Event :=
  if j % 2 = 0 then [Event.read fd sizeofBuf] else [Event.write fd (t.s j) (t.l j)]

/-- The one channel operation of turn `j`. -/
def opOf (t : Tokens) (fd : Int) (j : Nat) : Event :=
  if j % 2 = 0 then Event.read fd sizeofBuf else Event.write fd (t.s j) (t.l j)

/-- The strings of the tokens at the even indices below `m`, in increasing
order of index. -/
def evenTokens (t : Tokens) (m : Nat) : List (List Nat) :=
  ((List.range m).filter (fun j => j % 2 = 0)).map (fun j => cstr (t.s j))

/-- The strings of all the tokens of the table, in order. -/
def allTokens (t : Tokens) : List (List Nat) :=
  (List.range t.N).map (fun j => cstr (t.s j))

/-- The first `n` bytes of the memory at a `char` pointer. -/
def firstBytes : List Nat → Nat → List Nat
  | _, 0 => []
  | m, n + 1 => m.headD 0 :: firstBytes m.tail n

/-! ## The responder -/

/-- Modelled from the spec: the body of the loop of the responder `bob`, whose
source `bob.c` is not among the sources.  On an even index it writes the token
in full, and a returned count that differs from the requested length, an
error return included, ends the exchange for this role; on an odd index it
reads up to the capacity of its scratch buffer, and neither the returned
value nor the content is checked. -/
def bobTurn {σ : Type} (ch : Channel σ) (t : Tokens) (fd : Int) (i : Nat) (c : σ) : Turn σ :=
  if i % 2 = 0 then
    let wr := ch.write c fd (t.s i) (t.l i)
    if wr.1 ≠ (t.l i : Int) then
      ⟨wr.2, [Event.write fd (t.s i) (t.l i)], true⟩
    else
      ⟨wr.2, [Event.write fd (t.s i) (t.l i)], false⟩
  else
    let rd := ch.read c fd sizeofBuf
    ⟨rd.2.2, [Event.read fd sizeofBuf], false⟩

/-- Modelled from the spec: the loop of the responder over the turn indices
`0 .. N-1`, one turn after the other, left at the first turn that fails.  The
first argument is the number of indices still ahead. -/
def bobLoop {σ : Type} (ch : Channel σ) (t : Tokens) (fd : Int) : Nat → State σ → State σ
  | 0, st => st
  | k + 1, st =>
    let tr := bobTurn ch t fd st.i st.chan
    if tr.brk then
      ⟨st.i, tr.chan, st.trace ++ tr.events, true⟩
    else
      bobLoop ch t fd k ⟨st.i + 1, tr.chan, st.trace ++ tr.events, st.broke⟩

/-- Modelled from the spec: the responder `bob`, called with the descriptor
`fd` on a channel in state `c`.  The spec gives it no `close` of its own. -/
def bob {σ : Type} (ch : Channel σ) (t : Tokens) (fd : Int) (c : σ) : State σ :=
  bobLoop ch t fd t.N ⟨0, c, [], false⟩

/-- The channel state in which turn `j` of the responder starts when every
earlier turn was carried out. -/
def bobChanAt {σ : Type} (ch : Channel σ) (t : Tokens) (fd : Int) (c : σ) : Nat → σ
  | 0 => c
  | j + 1 => (bobTurn ch t fd j (bobChanAt ch t fd c j)).chan

/-- The answer of the channel to the `write` of the even turn `j` of the
responder. -/
def bobWriteAt {σ : Type} (ch : Channel σ) (t : Tokens) (fd : Int) (c : σ) (j : Nat) :
    Int × σ :=
  ch.write (bobChanAt ch t fd c j) fd (t.s j) (t.l j)

/-- The one channel operation of turn `j` of the responder. -/
def bobOp (t : Tokens) (fd : Int) (j : Nat) : Event :=
  if j % 2 = 0 then Event.write fd (t.s j) (t.l j) else Event.read fd sizeofBuf

/-- The `write` calls of a trace, in order. -/
def writes (tr : List Event) : List Event :=
  tr.filter (fun e => match e with
    | Event.write _ _ _ => true
    | _ => false)

/-- The `read` calls of a trace, in order. -/
def reads (tr : List Event) : List Event :=
  tr.filter (fun e => match e with
    | Event.read _ _ => true
    | _ => false)

/-! ## Concrete token tables and channels -/

/-- A channel that answers from a script: the state holds the answers still
to be given to `read` (the returned value and the bytes stored) and to
`write` (the returned value).  When the script is used up the call returns
`0` and stores nothing. -/
def scripted : Channel (List (Int × List Nat) × List Int) :=
  ⟨fun c _ _ => match c.1 with
      | [] => (0, [], c)
      | r :: rs => (r.1, r.2, (rs, c.2)),
   fun c _ _ _ => match c.2 with
      | [] => (0, c)
      | w :: ws => (w, (c.1, ws)),
   fun c _ => c⟩

/-- A channel that echoes: the state is the queue of bytes written and not yet
read.  A `write` appends its `count` bytes and returns `count`; a `read` takes
up to `count` bytes from the front of the queue and returns their number, so
a `read` of the empty queue stores nothing and returns `0`. -/
def echo : Channel (List Nat) :=
  ⟨fun q _ count => (((q.take count).length : Nat), q.take count, q.drop count),
   fun q _ buf count => ((count : Nat), q ++ buf.take count),
   fun q _ => q⟩

/-- The faithful peer of the initiator for the table `t` on descriptor `fd0`:
the state holds the index of the next token it accepts and the index of the
next token it sends.  A `read` stores the string of the token to send, as far
as it fits, and returns the number of bytes stored; a `write` is accepted
when it carries the bytes of the expected token and then returns `count`.
A call on another descriptor, past the end of the table or with other bytes
returns `-1`. -/
def peer (t : Tokens) (fd0 : Int) : Channel (Nat × Nat) :=
  ⟨fun c fd count =>
      if fd ≠ fd0 ∨ t.N ≤ c.2 then (-1, [], c)
      else ((((cstr (t.s c.2)).take count).length : Nat), (cstr (t.s c.2)).take count,
        (c.1, c.2 + 2)),
   fun c fd buf count =>
      if fd ≠ fd0 ∨ t.N ≤ c.1 then (-1, c)
      else if buf.take count ≠ (t.s c.1).take (t.l c.1) then (-1, c)
      else ((count : Nat), (c.1 + 2, c.2)),
   fun c _ => c⟩

/-- The bytes of a string literal. -/
def bytes (str : String) : List Nat := str.toList.map Char.toNat

/-- Modelled from the spec: the words of the array `s` of `common.h`, which is
not among the sources; the spec lists the nine tokens of the reference
exchange. -/
def foxWords : List (List Nat) :=
  [bytes "The", bytes "quick", bytes "brown", bytes "fox", bytes "jumps",
   bytes "over", bytes "the", bytes "lazy", bytes "dog"]

/-- The table made of a list of NUL-free words, each with its own length. -/
def tableOf (ws : List (List Nat)) : Tokens :=
  ⟨ws.length, fun i => ws.getD i [], fun i => (ws.getD i []).length⟩

/-- Modelled from the spec: the token table of `common.h` for the reference
exchange, `N = 9`, each token with its string length. -/
def fox : Tokens := tableOf foxWords

/-- A three-token table whose first token is empty. -/
def emptyFirst : Tokens := tableOf [[], bytes "ab", bytes "ab"]

/-- A two-token table whose first token has length 3 and a NUL as its second
byte. -/
def nulToken : Tokens :=
  ⟨2, fun i => if i = 0 then [97, 0, 121] else bytes "b", fun i => if i = 0 then 3 else 1⟩

/-- A two-token table whose first token is ten bytes long. -/
def longFirst : Tokens := tableOf [bytes "abcdefghij", bytes "k"]

/-- A three-token table whose middle token is `len` bytes long. -/
def longMiddle (len : Nat) : Tokens :=
  ⟨3, fun i => if i = 0 then bytes "a" else if i = 1 then List.replicate len 120 else bytes "b",
   fun i => if i = 1 then len else 1⟩

variable {σ : Type}

/-! ## Lemmas on the primitives -/

/-- The result of `strncmp` depends on its arguments only through their first
`n` bytes. -/
theorem strncmp_congr : ∀ (n : Nat) (a b a2 b2 : List Nat),
    firstBytes a n = firstBytes a2 n → firstBytes b n = firstBytes b2 n →
    strncmp a b n = strncmp a2 b2 n := by
  intro n
  induction n with
  | zero => intro a b a2 b2 _ _; simp [strncmp]
  | succ n ih =>
    intro a b a2 b2 ha hb
    simp only [firstBytes, List.cons.injEq] at ha hb
    simp only [strncmp, ha.1, hb.1]
    rw [ih a.tail b.tail a2.tail b2.tail ha.2 hb.2]

theorem strncmp_self : ∀ (n : Nat) (a : List Nat), strncmp a a n = 0 := by
  intro n
  induction n with
  | zero => intro a; simp [strncmp]
  | succ n ih => intro a; simp [strncmp, ih]

theorem strncmp_eq_zero_of_firstBytes (n : Nat) (a b : List Nat)
    (h : firstBytes a n = firstBytes b n) : strncmp a b n = 0 := by
  rw [strncmp_congr n a b b b h rfl, strncmp_self]

/-- When the first `n` bytes of `b` hold no NUL and differ from those of `a`,
`strncmp` reports a difference. -/
theorem strncmp_ne_zero_of_firstBytes : ∀ (n : Nat) (a b : List Nat),
    (∀ x ∈ firstBytes b n, x ≠ 0) → firstBytes a n ≠ firstBytes b n → strncmp a b n ≠ 0 := by
  intro n
  induction n with
  | zero => intro a b _ h; simp [firstBytes] at h
  | succ n ih =>
    intro a b hz hne
    simp only [firstBytes, List.mem_cons, forall_eq_or_imp] at hz
    simp only [firstBytes, ne_eq, List.cons.injEq, not_and] at hne
    unfold strncmp
    by_cases hh : a.headD 0 = b.headD 0
    · have h0 : ¬ a.headD 0 = 0 := by rw [hh]; exact hz.1
      simp only [hh, ne_eq, not_true_eq_false, if_false]
      rw [hh] at h0
      simp only [h0, if_false]
      exact ih a.tail b.tail hz.2 (hne hh)
    · simp only [ne_eq, hh, not_false_eq_true, if_true]
      intro h
      apply hh
      have : (a.headD 0 : Int) = (b.headD 0 : Int) := by linarith
      exact_mod_cast this

theorem store_nil_zeros (p : Nat) : store (memset p 0) [] = List.replicate p 0 := by
  simp [store, memset]

theorem store_cons_zeros (p x : Nat) (d : List Nat) :
    store (memset (p + 1) 0) (x :: d) = x :: store (memset p 0) d := by
  simp [store, memset, List.replicate_succ]

theorem firstBytes_replicate_zero : ∀ (n p : Nat),
    firstBytes (List.replicate p 0) n = List.replicate n 0 := by
  intro n
  induction n with
  | zero => intro p; simp [firstBytes]
  | succ n ih =>
    intro p
    cases p with
    | zero => 
      have := ih 0
      simp only [List.replicate_zero] at this
      simp [firstBytes, List.replicate_succ, this]
    | succ p => simp [firstBytes, List.replicate_succ, ih]

theorem firstBytes_nil (n : Nat) : firstBytes [] n = List.replicate n 0 := by
  simpa using firstBytes_replicate_zero n 0

theorem firstBytes_store : ∀ (n p : Nat) (d : List Nat), n ≤ p →
    firstBytes (store (memset p 0) d) n = firstBytes d n := by
  intro n
  induction n with
  | zero => intro p d _; simp [firstBytes]
  | succ n ih =>
    intro p d hp
    obtain ⟨q, rfl⟩ : ∃ q, p = q + 1 := ⟨p - 1, by omega⟩
    cases d with
    | nil =>
      rw [store_nil_zeros, firstBytes_replicate_zero, firstBytes_nil]
    | cons x d =>
      rw [store_cons_zeros]
      simp [firstBytes, ih q d (by omega)]

theorem strncmp_cstr : ∀ (n : Nat) (m : List Nat), strncmp (cstr m) m n = 0 := by
  intro n
  induction n with
  | zero => intro m; simp [strncmp]
  | succ n ih =>
    intro m
    cases m with
    | nil => simp [strncmp, cstr]
    | cons x m =>
      by_cases hx : x = 0
      · subst hx; simp [strncmp, cstr]
      · have : cstr (x :: m) = x :: cstr m := by simp [cstr, List.takeWhile, hx]
        rw [this]
        simp [strncmp, hx, ih m]

theorem firstBytes_take : ∀ (n p : Nat) (d : List Nat), n ≤ p →
    firstBytes (d.take p) n = firstBytes d n := by
  intro n
  induction n with
  | zero => intro p d _; simp [firstBytes]
  | succ n ih =>
    intro p d hp
    obtain ⟨q, rfl⟩ : ∃ q, p = q + 1 := ⟨p - 1, by omega⟩
    cases d with
    | nil => simp
    | cons x d => simp [firstBytes, ih q d (by omega)]

theorem min_le_right (a b : Nat) : min a b ≤ b := by
  unfold min; split_ifs <;> omega

theorem toInt_neg_one : toInt (-1) = -1 := by decide

/-! ## The loop, unrolled -/

theorem chanAt_succ (ch : Channel σ) (t : Tokens) (fd : Int) (c : σ) (j : Nat) :
    chanAt ch t fd c (j + 1) = (turnAt ch t fd c j).chan := rfl

/-- The loop, started at index `st.i` with `k` indices ahead, runs the turns
from `st.i` up to the first one `m` that leaves the loop, or through all of
them. -/
theorem aliceLoop_spec (ch : Channel σ) (t : Tokens) (fd : Int) (c : σ) :
    ∀ (k : Nat) (st : State σ), st.chan = chanAt ch t fd c st.i →
      ∃ m, st.i ≤ m ∧ m ≤ st.i + k ∧
        (∀ j, st.i ≤ j → j < m → (turnAt ch t fd c j).brk = false) ∧
        (m < st.i + k → (turnAt ch t fd c m).brk = true) ∧
        (aliceLoop ch t fd k st).i = m ∧
        (aliceLoop ch t fd k st).broke = (st.broke || decide (m < st.i + k)) ∧
        (aliceLoop ch t fd k st).trace =
          st.trace ++ (List.range' st.i (m - st.i)).flatMap (fun j => (turnAt ch t fd c j).events)
            ++ (if m < st.i + k then (turnAt ch t fd c m).events else []) ∧
        (aliceLoop ch t fd k st).chan = chanAt ch t fd c (if m < st.i + k then m + 1 else m) := by
  intro k
  induction k with
  | zero =>
    intro st hc
    refine ⟨st.i, le_refl _, le_refl _, ?_, ?_, rfl, ?_, ?_, ?_⟩
    · intro j h1 h2; omega
    · intro h; omega
    · simp [aliceLoop]
    · simp [aliceLoop]
    · simp [aliceLoop, hc]
  | succ k ih =>
    intro st hc
    have htr : turn ch t fd st.i st.chan = turnAt ch t fd c st.i := by
      rw [hc]; rfl
    by_cases hb : (turnAt ch t fd c st.i).brk = true
    · refine ⟨st.i, le_refl _, by omega, ?_, ?_, ?_, ?_, ?_, ?_⟩
      · intro j h1 h2; omega
      · intro _; exact hb
      · simp [aliceLoop, htr, hb]
      · simp [aliceLoop, htr, hb]
      · simp [aliceLoop, htr, hb]
      · simp [aliceLoop, htr, hb, chanAt_succ]
    · have hb2 : (turnAt ch t fd c st.i).brk = false := by
        cases h : (turnAt ch t fd c st.i).brk
        · rfl
        · exact absurd h hb
      obtain ⟨m, h1, h2, h3, h4, h5, h6, h7, h8⟩ :=
        ih ⟨st.i + 1, (turnAt ch t fd c st.i).chan,
          st.trace ++ (turnAt ch t fd c st.i).events, st.broke⟩ rfl
      simp only at h1 h2 h3 h4 h5 h6 h7 h8
      have e1 : st.i + 1 + k = st.i + (k + 1) := by omega
      rw [e1] at h2 h4 h6 h7 h8
      refine ⟨m, by omega, h2, ?_, h4, ?_, ?_, ?_, ?_⟩
      · intro j hj1 hj2
        by_cases hj : j = st.i
        · rw [hj]; exact hb2
        · exact h3 j (by omega) hj2
      · simp [aliceLoop, htr, hb2, h5]
      · simp [aliceLoop, htr, hb2, h6]
      · have e2 : m - st.i = (m - (st.i + 1)) + 1 := by omega
        simp only [aliceLoop, htr, hb2, e2, List.range'_succ, List.flatMap_cons]
        rw [if_neg (by simp), h7]
        simp [List.append_assoc]
      · simp [aliceLoop, htr, hb2, h8]

/-! ## One turn -/

theorem turnAt_even (ch : Channel σ) (t : Tokens) (fd : Int) (c : σ) (j : Nat) (hj : j % 2 = 0) :
    (turnAt ch t fd c j).brk =
      decide (toInt (readAt ch t fd c j).1 = -1 ∨
        strncmp (bufAt ch t fd c j) (t.s j) (min (t.l j) sizeofBuf) ≠ 0) ∧
    (turnAt ch t fd c j).chan = (readAt ch t fd c j).2.2 := by
  unfold turnAt turn bufAt readAt
  simp only [hj, if_true]
  split_ifs with h <;> simp [h]

theorem turnAt_odd (ch : Channel σ) (t : Tokens) (fd : Int) (c : σ) (j : Nat) (hj : j % 2 = 1) :
    (turnAt ch t fd c j).brk = decide (toInt (t.l j) ≠ toInt (writeAt ch t fd c j).1) ∧
    (turnAt ch t fd c j).chan = (writeAt ch t fd c j).2 := by
  have hj2 : ¬ j % 2 = 0 := by omega
  unfold turnAt turn writeAt
  simp only [hj2, if_false]
  split_ifs with h <;> simp [h]

theorem turnAt_events_pass (ch : Channel σ) (t : Tokens) (fd : Int) (c : σ) (j : Nat)
    (h : (turnAt ch t fd c j).brk = false) : (turnAt ch t fd c j).events = passEvents t fd j := by
  unfold turnAt turn passEvents at *
  by_cases hj : j % 2 = 0
  · simp only [hj, if_true] at h ⊢
    split_ifs at h ⊢ with h2
    rfl
  · simp only [hj, if_false] at h ⊢
    split_ifs with h2 <;> rfl

theorem turnAt_events_fail (ch : Channel σ) (t : Tokens) (fd : Int) (c : σ) (j : Nat)
    (h : (turnAt ch t fd c j).brk = true) : (turnAt ch t fd c j).events = failEvents t fd j := by
  unfold turnAt turn failEvents at *
  by_cases hj : j % 2 = 0
  · simp only [hj, if_true] at h ⊢
    split_ifs at h ⊢ with h2
    rfl
  · simp only [hj, if_false] at h ⊢
    split_ifs with h2 <;> rfl

/-! ## The whole run -/

theorem flatMap_congr_range (m : Nat) (f g : Nat → List Event)
    (h : ∀ j, j < m → f j = g j) : (List.range m).flatMap f = (List.range m).flatMap g := by
  induction m with
  | zero => rfl
  | succ m ih =>
    rw [List.range_succ, List.flatMap_append, List.flatMap_append,
      ih (fun j hj => h j (by omega))]
    simp [h m (by omega)]

/-- The run of `alice`: the turns below the first failing turn `m` pass, turn
`m` fails when it is below `N`, and then the descriptor is closed. -/
theorem alice_run (ch : Channel σ) (t : Tokens) (fd : Int) (c : σ) :
    ∃ m, m ≤ t.N ∧
      (∀ j, j < m → (turnAt ch t fd c j).brk = false) ∧
      (m < t.N → (turnAt ch t fd c m).brk = true) ∧
      (alice ch t fd c).i = m ∧
      (alice ch t fd c).broke = decide (m < t.N) ∧
      (alice ch t fd c).trace =
        (List.range m).flatMap (passEvents t fd)
          ++ (if m < t.N then failEvents t fd m else []) ++ [Event.close fd] := by
  obtain ⟨m, _, h2, h3, h4, h5, h6, h7, _⟩ :=
    aliceLoop_spec ch t fd c t.N ⟨0, c, [], false⟩ rfl
  simp only [Nat.zero_add, Nat.zero_le, forall_true_left, Bool.false_or, List.nil_append,
    Nat.sub_zero] at h2 h3 h4 h5 h6 h7
  refine ⟨m, h2, h3, h4, h5, h6, ?_⟩
  show (aliceLoop ch t fd t.N ⟨0, c, [], false⟩).trace ++ [Event.close fd] = _
  rw [h7, ← List.range_eq_range']
  rw [flatMap_congr_range m _ (passEvents t fd)
    (fun j hj => turnAt_events_pass ch t fd c j (h3 j hj))]
  by_cases hm : m < t.N
  · simp only [hm, if_true, turnAt_events_fail ch t fd c m (h4 hm)]
  · simp only [hm, if_false]

/-- A reached turn that leaves the loop is where the run ends. -/
theorem alice_stops (ch : Channel σ) (t : Tokens) (fd : Int) (c : σ) (i : Nat)
    (hr : Reached ch t fd c i) (hb : (turnAt ch t fd c i).brk = true) :
    (alice ch t fd c).i = i ∧ (alice ch t fd c).broke = true ∧
      (alice ch t fd c).trace =
        (List.range i).flatMap (passEvents t fd) ++ failEvents t fd i ++ [Event.close fd] := by
  obtain ⟨m, h1, h2, h3, h4, h5, h6⟩ := alice_run ch t fd c
  have hmi : m = i := by
    rcases Nat.lt_trichotomy m i with h | h | h
    · have := h3 (by have := hr.1; omega)
      rw [hr.2 m h] at this
      exact absurd this (by simp)
    · exact h
    · have := h2 i h
      rw [hb] at this
      exact absurd this (by simp)
  subst hmi
  have hN := hr.1
  refine ⟨h4, ?_, ?_⟩
  · rw [h5]; simp [hN]
  · rw [h6]; simp [hN]

/-- A reached turn that does not leave the loop is left behind by the loop
counter. -/
theorem alice_passes (ch : Channel σ) (t : Tokens) (fd : Int) (c : σ) (i : Nat)
    (hr : Reached ch t fd c i) (hb : (turnAt ch t fd c i).brk = false) :
    i < (alice ch t fd c).i := by
  obtain ⟨m, h1, h2, h3, h4, h5, h6⟩ := alice_run ch t fd c
  rw [h4]
  rcases Nat.lt_trichotomy m i with h | h | h
  · have := h3 (by have := hr.1; omega)
    rw [hr.2 m h] at this
    exact absurd this (by simp)
  · subst h
    have := h3 hr.1
    rw [hb] at this
    exact absurd this (by simp)
  · exact h

/-- When no turn leaves the loop, the run goes through all `N` turns. -/
theorem alice_completes (ch : Channel σ) (t : Tokens) (fd : Int) (c : σ)
    (h : ∀ j, j < t.N → (turnAt ch t fd c j).brk = false) :
    (alice ch t fd c).i = t.N ∧ (alice ch t fd c).broke = false ∧
      (alice ch t fd c).trace =
        (List.range t.N).flatMap (passEvents t fd) ++ [Event.close fd] := by
  obtain ⟨m, h1, h2, h3, h4, h5, h6⟩ := alice_run ch t fd c
  have hm : m = t.N := by
    by_contra hne
    have hlt : m < t.N := by omega
    have := h3 hlt
    rw [h m hlt] at this
    exact absurd this (by simp)
  subst hm
  refine ⟨h4, ?_, ?_⟩
  · rw [h5]; simp
  · rw [h6]; simp

/-! ## Observations -/

theorem out_append (a b : List Event) : out (a ++ b) = out a ++ out b := by
  simp [out, List.filterMap_append]

theorem ops_append (a b : List Event) : ops (a ++ b) = ops a ++ ops b := by
  simp [ops, List.filter_append]

theorem out_passEvents (t : Tokens) (fd : Int) (j : Nat) :
    out (passEvents t fd j) = if j % 2 = 0 then [cstr (t.s j)] else [] := by
  unfold passEvents; split_ifs <;> simp [out]

theorem out_failEvents (t : Tokens) (fd : Int) (j : Nat) : out (failEvents t fd j) = [] := by
  unfold failEvents; split_ifs <;> simp [out]

theorem ops_passEvents (t : Tokens) (fd : Int) (j : Nat) :
    ops (passEvents t fd j) = [opOf t fd j] := by
  unfold passEvents opOf; split_ifs <;> simp [ops]

theorem ops_failEvents (t : Tokens) (fd : Int) (j : Nat) :
    ops (failEvents t fd j) = [opOf t fd j] := by
  unfold failEvents opOf; split_ifs <;> simp [ops]

theorem out_passed (t : Tokens) (fd : Int) (m : Nat) :
    out ((List.range m).flatMap (passEvents t fd)) = evenTokens t m := by
  induction m with
  | zero => simp [out, evenTokens]
  | succ m ih =>
    rw [List.range_succ, List.flatMap_append, out_append, ih]
    simp only [List.flatMap_cons, List.flatMap_nil, List.append_nil, out_passEvents]
    unfold evenTokens
    rw [List.range_succ, List.filter_append, List.map_append]
    by_cases hm : m % 2 = 0 <;> simp [hm]

theorem ops_passed (t : Tokens) (fd : Int) (m : Nat) :
    ops ((List.range m).flatMap (passEvents t fd)) = (List.range m).map (opOf t fd) := by
  induction m with
  | zero => simp [ops]
  | succ m ih =>
    rw [List.range_succ, List.flatMap_append, ops_append, ih]
    simp [ops_passEvents]

theorem out_close (fd : Int) : out [Event.close fd] = [] := rfl

theorem ops_close (fd : Int) : ops [Event.close fd] = [Event.close fd] := rfl

theorem out_nil : out [] = [] := rfl

theorem ops_nil : ops [] = [] := rfl

/-! ## Consequences of a single answer of the channel -/

/-- The number of bytes a `read` into the buffer delivered is never the error
value once converted to `int`. -/
theorem toInt_length_take_ne (d : List Nat) :
    toInt (((d.take sizeofBuf).length : Nat) : Int) ≠ -1 := by
  have h : (d.take sizeofBuf).length ≤ 8 := by
    simp only [List.length_take, sizeofBuf]; omega
  unfold toInt; omega

/-- The string of a token, delivered into the cleared buffer as far as it
fits, compares equal to the token. -/
theorem delivered_accepted (t : Tokens) (j : Nat) :
    strncmp (store (memset sizeofBuf 0) ((cstr (t.s j)).take sizeofBuf)) (t.s j)
      (min (t.l j) sizeofBuf) = 0 := by
  have hn := min_le_right (t.l j) sizeofBuf
  rw [strncmp_congr (min (t.l j) sizeofBuf) _ (t.s j) (cstr (t.s j)) (t.s j) _ rfl]
  · exact strncmp_cstr _ _
  · rw [firstBytes_store _ _ _ hn, firstBytes_take _ _ _ hn]

/-- Taking the first `n` bytes twice is taking them once. -/
theorem firstBytes_idem : ∀ (n : Nat) (a : List Nat),
    firstBytes (firstBytes a n) n = firstBytes a n := by
  intro n
  induction n with
  | zero => intro a; rfl
  | succ n ih => intro a; simp [firstBytes, ih]

/-- A reached turn that does not leave the loop contributes its events to the
trace, right after the events of the turns before it. -/
theorem alice_trace_at_pass (ch : Channel σ) (t : Tokens) (fd : Int) (c : σ) (i : Nat)
    (hr : Reached ch t fd c i) (hb : (turnAt ch t fd c i).brk = false) :
    ∃ rest, (alice ch t fd c).trace =
      (List.range i).flatMap (passEvents t fd) ++ passEvents t fd i ++ rest := by
  have hlt := alice_passes ch t fd c i hr hb
  obtain ⟨m, _, _, _, h4, _, h6⟩ := alice_run ch t fd c
  rw [h4] at hlt
  obtain ⟨d, rfl⟩ : ∃ d, m = (i + 1) + d := ⟨m - (i + 1), by omega⟩
  rw [h6, List.range_add, List.flatMap_append, List.range_succ, List.flatMap_append]
  simp only [List.flatMap_cons, List.flatMap_nil, List.append_nil, List.append_assoc]
  exact ⟨_, rfl⟩

/-- A `read` that returns `-1` ends the loop at its turn: nothing is printed
for the turn and the next call is `close`. -/
theorem read_error_stops (ch : Channel σ) (t : Tokens) (fd : Int) (c : σ) (i : Nat)
    (hr : Reached ch t fd c i) (he : i % 2 = 0) (hret : (readAt ch t fd c i).1 = -1) :
    (alice ch t fd c).i = i ∧ (alice ch t fd c).broke = true ∧
      (alice ch t fd c).trace =
        (List.range i).flatMap (passEvents t fd) ++ [Event.read fd sizeofBuf, Event.close fd] := by
  have hb : (turnAt ch t fd c i).brk = true := by
    rw [(turnAt_even ch t fd c i he).1, hret]; simp [toInt_neg_one]
  obtain ⟨h1, h2, h3⟩ := alice_stops ch t fd c i hr hb
  refine ⟨h1, h2, ?_⟩
  rw [h3]; simp [failEvents, he]

/-- A `write` whose returned value, as `int`, differs from the length, as
`int`, ends the loop at its turn: the next call is `close`. -/
theorem write_stops (ch : Channel σ) (t : Tokens) (fd : Int) (c : σ) (i : Nat)
    (hr : Reached ch t fd c i) (ho : i % 2 = 1)
    (hne : toInt (t.l i) ≠ toInt (writeAt ch t fd c i).1) :
    (alice ch t fd c).i = i ∧ (alice ch t fd c).broke = true ∧
      (alice ch t fd c).trace =
        (List.range i).flatMap (passEvents t fd)
          ++ [Event.write fd (t.s i) (t.l i), Event.close fd] := by
  have hb : (turnAt ch t fd c i).brk = true := by
    rw [(turnAt_odd ch t fd c i ho).1]; simp [hne]
  obtain ⟨h1, h2, h3⟩ := alice_stops ch t fd c i hr hb
  refine ⟨h1, h2, ?_⟩
  have : ¬ i % 2 = 0 := by omega
  rw [h3]; simp [failEvents, this]

/-- A `write` that returns a byte count below the length ends the loop at its
turn, provided the length is below `2^32`. -/
theorem short_write_stops (ch : Channel σ) (t : Tokens) (fd : Int) (c : σ) (i : Nat)
    (hr : Reached ch t fd c i) (ho : i % 2 = 1) (hl : t.l i < 4294967296)
    (h0 : 0 ≤ (writeAt ch t fd c i).1) (hlt : (writeAt ch t fd c i).1 < t.l i) :
    (alice ch t fd c).i = i ∧ (alice ch t fd c).broke = true ∧
      (alice ch t fd c).trace =
        (List.range i).flatMap (passEvents t fd)
          ++ [Event.write fd (t.s i) (t.l i), Event.close fd] := by
  apply write_stops ch t fd c i hr ho
  unfold toInt; omega

/-- A `write` that returns `-1` ends the loop at its turn, provided the length
is not `2^32 - 1` modulo `2^32`. -/
theorem write_error_stops (ch : Channel σ) (t : Tokens) (fd : Int) (c : σ) (i : Nat)
    (hr : Reached ch t fd c i) (ho : i % 2 = 1) (hl : t.l i % 4294967296 ≠ 4294967295)
    (hret : (writeAt ch t fd c i).1 = -1) :
    (alice ch t fd c).i = i ∧ (alice ch t fd c).broke = true ∧
      (alice ch t fd c).trace =
        (List.range i).flatMap (passEvents t fd)
          ++ [Event.write fd (t.s i) (t.l i), Event.close fd] := by
  apply write_stops ch t fd c i hr ho
  rw [hret]
  unfold toInt; omega

/-- The reference scenario of a short write: with the fox table, when the
`write` of turn 1 returns `0` instead of `5`, `alice` reads at turn 0, prints
`The`, writes at turn 1 and closes; the `read` of turn 2 never happens. -/
theorem fox_short_write_at_turn_one :
    (alice scripted fox 42 ([(3, bytes "The")], [0])).broke = true ∧
    (alice scripted fox 42 ([(3, bytes "The")], [0])).i = 1 ∧
    (alice scripted fox 42 ([(3, bytes "The")], [0])).trace =
      [Event.read 42 8, Event.printf (bytes "The"), Event.write 42 (bytes "quick") 5,
       Event.close 42] := by
  decide

/-! ## Two runs side by side -/

/-- Two runs over the same table whose turns take the same decision, as far as
the first run gets, end at the same turn with the same trace. -/
theorem alice_congr {τ : Type} (ch1 : Channel σ) (ch2 : Channel τ) (t : Tokens) (fd : Int)
    (c1 : σ) (c2 : τ)
    (h : ∀ j, Reached ch1 t fd c1 j →
      (turnAt ch2 t fd c2 j).brk = (turnAt ch1 t fd c1 j).brk) :
    (alice ch1 t fd c1).trace = (alice ch2 t fd c2).trace ∧
      (alice ch1 t fd c1).i = (alice ch2 t fd c2).i ∧
      (alice ch1 t fd c1).broke = (alice ch2 t fd c2).broke := by
  obtain ⟨m, h1, h2, h3, _, _, _⟩ := alice_run ch1 t fd c1
  have hbelow : ∀ j, j < m → (turnAt ch2 t fd c2 j).brk = false := by
    intro j hj
    rw [h j ⟨by omega, fun k hk => h2 k (by omega)⟩]
    exact h2 j hj
  by_cases hm : m < t.N
  · have hr1 : Reached ch1 t fd c1 m := ⟨hm, h2⟩
    have hr2 : Reached ch2 t fd c2 m := ⟨hm, hbelow⟩
    have hb2 : (turnAt ch2 t fd c2 m).brk = true := by rw [h m hr1]; exact h3 hm
    obtain ⟨a1, a2, a3⟩ := alice_stops ch1 t fd c1 m hr1 (h3 hm)
    obtain ⟨b1, b2, b3⟩ := alice_stops ch2 t fd c2 m hr2 hb2
    exact ⟨by rw [a3, b3], by rw [a1, b1], by rw [a2, b2]⟩
  · have hN : m = t.N := by omega
    subst hN
    obtain ⟨a1, a2, a3⟩ := alice_completes ch1 t fd c1 h2
    obtain ⟨b1, b2, b3⟩ := alice_completes ch2 t fd c2 hbelow
    exact ⟨by rw [a3, b3], by rw [a1, b1], by rw [a2, b2]⟩

/-! ## Short and long deliveries -/

/-- The first `n` bytes of `a ++ e` are `a` when `a` is `n` bytes long. -/
theorem firstBytes_append : ∀ (n : Nat) (a e : List Nat), a.length = n →
    firstBytes (a ++ e) n = a := by
  intro n
  induction n with
  | zero => intro a e h; simp [firstBytes, List.length_eq_zero.mp h]
  | succ n ih =>
    intro a e h
    cases a with
    | nil => simp at h
    | cons x a =>
      simp only [List.length_cons, Nat.add_right_cancel_iff] at h
      simp [firstBytes, ih a e h]

/-- The first `n` bytes are `n` bytes. -/
theorem firstBytes_length : ∀ (n : Nat) (m : List Nat), (firstBytes m n).length = n := by
  intro n
  induction n with
  | zero => intro m; rfl
  | succ n ih => intro m; simp [firstBytes, ih]

/-- The first `n` bytes are among the first `n2` bytes when `n ≤ n2`. -/
theorem mem_firstBytes_of_le : ∀ (n n2 : Nat) (m : List Nat) (x : Nat), n ≤ n2 →
    x ∈ firstBytes m n → x ∈ firstBytes m n2 := by
  intro n
  induction n with
  | zero => intro n2 m x _ h; simp [firstBytes] at h
  | succ n ih =>
    intro n2 m x hle h
    obtain ⟨q, rfl⟩ : ∃ q, n2 = q + 1 := ⟨n2 - 1, by omega⟩
    simp only [firstBytes, List.mem_cons] at h ⊢
    rcases h with h | h
    · exact Or.inl h
    · exact Or.inr (ih q m.tail x (by omega) h)

/-- A delivery shorter than `n` leaves a NUL among the first `n` bytes of the
cleared buffer. -/
theorem zero_mem_firstBytes_store : ∀ (n p : Nat) (d : List Nat), n ≤ p → d.length < n →
    0 ∈ firstBytes (store (memset p 0) d) n := by
  intro n
  induction n with
  | zero => intro p d _ h; omega
  | succ n ih =>
    intro p d hp hd
    obtain ⟨q, rfl⟩ : ∃ q, p = q + 1 := ⟨p - 1, by omega⟩
    cases d with
    | nil =>
      rw [store_nil_zeros, firstBytes_replicate_zero]
      simp [List.replicate_succ]
    | cons x d =>
      rw [store_cons_zeros]
      simp only [firstBytes, List.headD_cons, List.tail_cons, List.mem_cons]
      right
      exact ih q d (by omega) (by simpa using hd)

/-- A delivery of the token followed by other bytes is taken for the token: the
`read` of turn 0 stores `Thexyzab` and `The` is printed. -/
theorem fox_extra_bytes_accepted :
    (alice scripted fox 42 ([(8, bytes "Thexyzab")], [0])).trace =
      [Event.read 42 8, Event.printf (bytes "The"), Event.write 42 (bytes "quick") 5,
       Event.close 42] := by
  decide

/-- A `read` that returns `2^32 - 1` is taken for a failed `read`: the value
stored in the `int` is `-1`. -/
theorem read_count_seen_as_error :
    toInt 4294967295 = -1 ∧
    (alice scripted fox 42 ([(4294967295, bytes "The")], [])).trace =
      [Event.read 42 8, Event.close 42] := by
  decide

/-- Every value of the range of `int` other than `-1`, so every byte count a
`read` of 8 bytes returns, is still not `-1` once stored in the `int`. -/
theorem toInt_ne_neg_one (x : Int) (h1 : -2147483648 ≤ x) (h2 : x < 2147483648)
    (h : x ≠ -1) : toInt x ≠ -1 := by
  unfold toInt; omega

/-! ## The responder's run -/

/-- A turn of the responder whose `write` returns the requested length, and
every `read` turn, does not leave the loop and makes its one call. -/
theorem bobTurn_pass (ch : Channel σ) (t : Tokens) (fd : Int) (c : σ) (j : Nat)
    (h : j % 2 = 0 → (ch.write c fd (t.s j) (t.l j)).1 = (t.l j : Nat)) :
    (bobTurn ch t fd j c).brk = false ∧ (bobTurn ch t fd j c).events = [bobOp t fd j] := by
  unfold bobTurn bobOp
  by_cases he : j % 2 = 0
  · simp [he, h he]
  · simp [he]

/-- The loop of the responder runs through every turn ahead when each `write`
on the way returns the requested length. -/
theorem bobLoop_complete (ch : Channel σ) (t : Tokens) (fd : Int) (c : σ) :
    ∀ (k : Nat) (st : State σ), st.chan = bobChanAt ch t fd c st.i →
      (∀ j, st.i ≤ j → j < st.i + k → j % 2 = 0 →
        (bobWriteAt ch t fd c j).1 = (t.l j : Nat)) →
      (bobLoop ch t fd k st).i = st.i + k ∧
      (bobLoop ch t fd k st).broke = st.broke ∧
      (bobLoop ch t fd k st).trace = st.trace ++ (List.range' st.i k).map (bobOp t fd) ∧
      (bobLoop ch t fd k st).chan = bobChanAt ch t fd c (st.i + k) := by
  intro k
  induction k with
  | zero => intro st hc _; simp [bobLoop, hc]
  | succ k ih =>
    intro st hc hW
    have hp := bobTurn_pass ch t fd st.chan st.i (by
      intro he
      have := hW st.i (le_refl _) (by omega) he
      rw [bobWriteAt, ← hc] at this
      exact this)
    obtain ⟨h1, h2, h3, h4⟩ :=
      ih ⟨st.i + 1, (bobTurn ch t fd st.i st.chan).chan,
        st.trace ++ (bobTurn ch t fd st.i st.chan).events, st.broke⟩
        (by simp only [bobChanAt, hc])
        (fun j hj1 hj2 he => hW j (by simp only at hj1; omega) (by simp only at hj2; omega) he)
    simp only at h1 h2 h3 h4
    have e1 : st.i + 1 + k = st.i + (k + 1) := by omega
    unfold bobLoop
    simp only [hp.1, Bool.false_eq_true, if_false]
    refine ⟨by rw [h1, e1], h2, ?_, by rw [h4, e1]⟩
    rw [h3, hp.2, List.range'_succ, List.map_cons, List.append_assoc]
    rfl

/-- Among the operations of the first `n` turns of the responder, the `write`
calls are those of the even turns. -/
theorem writes_map_bobOp (t : Tokens) (fd : Int) (n : Nat) :
    writes ((List.range n).map (bobOp t fd)) =
      ((List.range n).filter (fun j => j % 2 = 0)).map
        (fun j => Event.write fd (t.s j) (t.l j)) := by
  induction n with
  | zero => rfl
  | succ n ih =>
    rw [List.range_succ, List.map_append, List.filter_append, List.map_append]
    unfold writes at ih ⊢
    rw [List.filter_append, ih]
    by_cases he : n % 2 = 0 <;> simp [bobOp, he]

/-- Among the operations of the first `n` turns of the responder, the `read`
calls are those of the odd turns. -/
theorem reads_map_bobOp (t : Tokens) (fd : Int) (n : Nat) :
    reads ((List.range n).map (bobOp t fd)) =
      ((List.range n).filter (fun j => j % 2 = 1)).map (fun _ => Event.read fd sizeofBuf) := by
  induction n with
  | zero => rfl
  | succ n ih =>
    rw [List.range_succ, List.map_append, List.filter_append, List.map_append]
    unfold reads at ih ⊢
    rw [List.filter_append, ih]
    by_cases he : n % 2 = 0
    · simp [bobOp, he]
    · have ho : n % 2 = 1 := by omega
      simp [bobOp, he, ho]

/-! ## The claims -/

/-- Claim C1, refuted as stated.  On the echoing channel the fox exchange is
abandoned at turn 0, because nothing has been written when the first `read`
is made, and nothing is printed.  With a table whose first token is empty the
echoing channel does let all three turns complete, and still the observation
stream holds the tokens of turns 0 and 2 only, not the full sequence. -/
theorem C1_echo_counterexample :
    ((alice echo fox 42 []).broke = true ∧ (alice echo fox 42 []).i = 0 ∧
      out (alice echo fox 42 []).trace = [] ∧
      out (alice echo fox 42 []).trace ≠ allTokens fox) ∧
    ((alice echo emptyFirst 42 []).broke = false ∧ (alice echo emptyFirst 42 []).i = 3 ∧
      out (alice echo emptyFirst 42 []).trace = [[], bytes "ab"] ∧
      out (alice echo emptyFirst 42 []).trace ≠ allTokens emptyFirst) := by
  decide

/-- Claim C1, amended.  For every token table, on a channel whose `read` at
every even turn delivers the string of that turn's token (as much of it as
fits the buffer, returning the number of bytes delivered) and whose `write`
at every odd turn returns the requested length, the loop runs through all `N`
turns without `break`, the observation stream is the tokens at the even
indices below `N` in order, and the channel operations are one per turn in
turn order followed by `close`. -/
theorem C1_faithful_channel_completes (ch : Channel σ) (t : Tokens) (fd : Int) (c : σ)
    (hR : ∀ j, j < t.N → j % 2 = 0 →
      (readAt ch t fd c j).2.1 = (cstr (t.s j)).take sizeofBuf ∧
      (readAt ch t fd c j).1 = (((cstr (t.s j)).take sizeofBuf).length : Nat))
    (hW : ∀ j, j < t.N → j % 2 = 1 → (writeAt ch t fd c j).1 = (t.l j : Nat)) :
    (alice ch t fd c).i = t.N ∧ (alice ch t fd c).broke = false ∧
      out (alice ch t fd c).trace = evenTokens t t.N ∧
      ops (alice ch t fd c).trace = (List.range t.N).map (opOf t fd) ++ [Event.close fd] := by
  have hall : ∀ j, j < t.N → (turnAt ch t fd c j).brk = false := by
    intro j hj
    by_cases he : j % 2 = 0
    · rw [(turnAt_even ch t fd c j he).1]
      obtain ⟨h1, h2⟩ := hR j hj he
      have h3 := toInt_length_take_ne (cstr (t.s j))
      have h4 := delivered_accepted t j
      simp only [bufAt, h1, h2, h3, h4, ne_eq, not_true_eq_false, or_self, decide_False]
    · have ho : j % 2 = 1 := by omega
      rw [(turnAt_odd ch t fd c j ho).1, hW j hj ho]
      simp
  obtain ⟨h1, h2, h3⟩ := alice_completes ch t fd c hall
  refine ⟨h1, h2, ?_, ?_⟩
  · rw [h3, out_append, out_passed, out_close, List.append_nil]
  · rw [h3, ops_append, ops_passed, ops_close]

/-- The amended claim C1 at the fox table with its faithful peer. -/
theorem C1_faithful_channel_completes_witness :
    (alice (peer fox 42) fox 42 (1, 0)).i = fox.N ∧
      (alice (peer fox 42) fox 42 (1, 0)).broke = false ∧
      out (alice (peer fox 42) fox 42 (1, 0)).trace = evenTokens fox fox.N ∧
      ops (alice (peer fox 42) fox 42 (1, 0)).trace =
        (List.range fox.N).map (opOf fox 42) ++ [Event.close 42] :=
  C1_faithful_channel_completes (peer fox 42) fox 42 (1, 0) (by decide) (by decide)

/-- Claim C2.  For every token table and every channel there is a turn `m`,
the first turn that leaves the loop (`m = N` when none does), such that the
trace is the passing events of the turns below `m`, then the events of the
failing turn `m` if there is one, then `close`; a passing even turn is a
`read` followed by the `printf` of its token, a failing even turn is a `read`
alone, an odd turn is a `write` alone.  Hence the observation stream is
exactly the tokens at the even indices below `m`, in increasing order. -/
theorem C2_observation_stream (ch : Channel σ) (t : Tokens) (fd : Int) (c : σ) :
    ∃ m, m ≤ t.N ∧
      (∀ j, j < m → (turnAt ch t fd c j).brk = false) ∧
      (m < t.N → (turnAt ch t fd c m).brk = true) ∧
      (alice ch t fd c).trace =
        (List.range m).flatMap (passEvents t fd)
          ++ (if m < t.N then failEvents t fd m else []) ++ [Event.close fd] ∧
      out (alice ch t fd c).trace = evenTokens t m := by
  obtain ⟨m, h1, h2, h3, _, _, h6⟩ := alice_run ch t fd c
  refine ⟨m, h1, h2, h3, h6, ?_⟩
  rw [h6, out_append, out_append, out_passed, out_close]
  split_ifs <;> simp only [out_failEvents, out_nil, List.append_nil]

/-- Claim C3 fails on the code.  The middle token is `2^32 + 5` bytes long and
the `write` of turn 1 returns `5`, a byte count below the requested length.
The test `(int)l[i] != r` compares `5` with `5`, the loop goes on, and the
`read` of turn 2 is made and its token printed. -/
theorem C3_short_write_undetected :
    Reached scripted (longMiddle 4294967301) 42 ([(1, [97]), (1, [98])], [5]) 1 ∧
    (writeAt scripted (longMiddle 4294967301) 42 ([(1, [97]), (1, [98])], [5]) 1).1 = 5 ∧
    (5 : Int) < ((longMiddle 4294967301).l 1 : Nat) ∧
    (alice scripted (longMiddle 4294967301) 42 ([(1, [97]), (1, [98])], [5])).broke = false ∧
    (alice scripted (longMiddle 4294967301) 42 ([(1, [97]), (1, [98])], [5])).i = 3 ∧
    (alice scripted (longMiddle 4294967301) 42 ([(1, [97]), (1, [98])], [5])).trace =
      [Event.read 42 8, Event.printf [97],
       Event.write 42 (List.replicate 4294967301 120) 4294967301,
       Event.read 42 8, Event.printf [98], Event.close 42] := by
  refine ⟨by decide, by decide, by decide, by decide, by decide, by rfl⟩

/-- Claim C4, refuted as stated.  Token 0 is the three bytes `a`, NUL, `y`
with length 3 and the `read` leaves `a`, NUL, `x` in the buffer: the first
three bytes differ, but `strncmp` stops at the NUL, the token is printed and
the `write` of turn 1 is made. -/
theorem C4_nul_counterexample :
    Reached scripted nulToken 42 ([(3, [97, 0, 120])], [1]) 0 ∧
    firstBytes (bufAt scripted nulToken 42 ([(3, [97, 0, 120])], [1]) 0)
        (min (nulToken.l 0) sizeofBuf) = [97, 0, 120] ∧
    firstBytes (nulToken.s 0) (min (nulToken.l 0) sizeofBuf) = [97, 0, 121] ∧
    (alice scripted nulToken 42 ([(3, [97, 0, 120])], [1])).broke = false ∧
    (alice scripted nulToken 42 ([(3, [97, 0, 120])], [1])).i = 2 ∧
    (alice scripted nulToken 42 ([(3, [97, 0, 120])], [1])).trace =
      [Event.read 42 8, Event.printf [97], Event.write 42 (bytes "b") 1, Event.close 42] := by
  decide

/-- Claim C4, amended.  For every token table, every channel and every even
turn `i` that is reached, if the first `min(l[i], 8)` bytes of token `i`
contain no NUL and differ from the first `min(l[i], 8)` bytes of the buffer
after the `read`, then the loop ends at turn `i`: the trace is that of the
turns before `i`, the `read` of turn `i` and `close`; token `i` is not
printed and no later `read` or `write` is made. -/
theorem C4_mismatch_stops (ch : Channel σ) (t : Tokens) (fd : Int) (c : σ) (i : Nat)
    (hr : Reached ch t fd c i) (he : i % 2 = 0)
    (hz : ∀ x, x ∈ firstBytes (t.s i) (min (t.l i) sizeofBuf) → x ≠ 0)
    (hne : firstBytes (bufAt ch t fd c i) (min (t.l i) sizeofBuf)
      ≠ firstBytes (t.s i) (min (t.l i) sizeofBuf)) :
    (alice ch t fd c).i = i ∧ (alice ch t fd c).broke = true ∧
      (alice ch t fd c).trace =
        (List.range i).flatMap (passEvents t fd) ++ [Event.read fd sizeofBuf, Event.close fd] ∧
      out (alice ch t fd c).trace = evenTokens t i := by
  have hb : (turnAt ch t fd c i).brk = true := by
    rw [(turnAt_even ch t fd c i he).1]
    simp [strncmp_ne_zero_of_firstBytes _ _ _ hz hne]
  obtain ⟨h1, h2, h3⟩ := alice_stops ch t fd c i hr hb
  have h4 : (alice ch t fd c).trace =
      (List.range i).flatMap (passEvents t fd) ++ [Event.read fd sizeofBuf, Event.close fd] := by
    rw [h3]; simp [failEvents, he]
  refine ⟨h1, h2, h4, ?_⟩
  rw [h4, out_append, out_passed]
  simp [out]

/-- The amended claim C4 at the fox table, when the `read` of turn 2 delivers
`brawn` instead of `brown`. -/
theorem C4_mismatch_stops_witness :
    (alice scripted fox 42 ([(3, bytes "The"), (5, bytes "brawn")], [5])).i = 2 ∧
    (alice scripted fox 42 ([(3, bytes "The"), (5, bytes "brawn")], [5])).broke = true ∧
    (alice scripted fox 42 ([(3, bytes "The"), (5, bytes "brawn")], [5])).trace =
      (List.range 2).flatMap (passEvents fox 42) ++ [Event.read 42 sizeofBuf, Event.close 42] ∧
    out (alice scripted fox 42 ([(3, bytes "The"), (5, bytes "brawn")], [5])).trace =
      evenTokens fox 2 :=
  C4_mismatch_stops scripted fox 42 ([(3, bytes "The"), (5, bytes "brawn")], [5]) 2
    (by decide) (by decide) (by decide) (by decide)

/-- Claim C5 fails on the code.  The middle token is `2^32 - 1` bytes long and
the `write` of turn 1 returns the error value `-1`.  The test `(int)l[i] != r`
compares `-1` with `-1`, the loop goes on, and the `read` of turn 2 is made
and its token printed. -/
theorem C5_failed_write_undetected :
    Reached scripted (longMiddle 4294967295) 42 ([(1, [97]), (1, [98])], [-1]) 1 ∧
    (writeAt scripted (longMiddle 4294967295) 42 ([(1, [97]), (1, [98])], [-1]) 1).1 = -1 ∧
    (alice scripted (longMiddle 4294967295) 42 ([(1, [97]), (1, [98])], [-1])).broke = false ∧
    (alice scripted (longMiddle 4294967295) 42 ([(1, [97]), (1, [98])], [-1])).i = 3 ∧
    (alice scripted (longMiddle 4294967295) 42 ([(1, [97]), (1, [98])], [-1])).trace =
      [Event.read 42 8, Event.printf [97],
       Event.write 42 (List.replicate 4294967295 120) 4294967295,
       Event.read 42 8, Event.printf [98], Event.close 42] := by
  refine ⟨by decide, by decide, by decide, by decide, by rfl⟩

/-- Claim C6.  For every token table and every channel, however the loop
ends, the trace of `alice` is a list of events without any `close`, followed
by exactly one `close` of the descriptor: the descriptor is closed once, and
nothing follows the `close`. -/
theorem C6_closed_once_at_the_end (ch : Channel σ) (t : Tokens) (fd : Int) (c : σ) :
    ∃ before, (alice ch t fd c).trace = before ++ [Event.close fd] ∧
      ∀ e, e ∈ before → ∀ fd2, e ≠ Event.close fd2 := by
  obtain ⟨m, h1, h2, h3, _, _, h6⟩ := alice_run ch t fd c
  refine ⟨_, h6, ?_⟩
  intro e he fd2
  simp only [List.mem_append, List.mem_flatMap, List.mem_range] at he
  rcases he with ⟨j, _, hj⟩ | he
  · unfold passEvents at hj
    split_ifs at hj <;> simp at hj <;> rcases hj with rfl | rfl <;> simp
  · split_ifs at he
    · unfold failEvents at he
      split_ifs at he <;> simp at he <;> subst he <;> simp
    · simp at he

/-- Claim C7.  With the nine-token fox table, on every channel whose `read` at
each even turn delivers that turn's token and whose `write` at each odd turn
returns the requested length, `alice` makes exactly the calls read,
write(`quick`, 5), read, write(`fox`, 3), read, write(`over`, 4), read,
write(`lazy`, 4), read and then `close`, completes all nine turns without
`break`, and prints exactly `The`, `brown`, `jumps`, `the`, `dog`. -/
theorem C7_fox_run (ch : Channel σ) (fd : Int) (c : σ)
    (hR : ∀ j, j < 9 → j % 2 = 0 →
      (readAt ch fox fd c j).2.1 = fox.s j ∧ (readAt ch fox fd c j).1 = (fox.l j : Nat))
    (hW : ∀ j, j < 9 → j % 2 = 1 → (writeAt ch fox fd c j).1 = (fox.l j : Nat)) :
    (alice ch fox fd c).trace =
      [Event.read fd 8, Event.printf (bytes "The"), Event.write fd (bytes "quick") 5,
       Event.read fd 8, Event.printf (bytes "brown"), Event.write fd (bytes "fox") 3,
       Event.read fd 8, Event.printf (bytes "jumps"), Event.write fd (bytes "over") 4,
       Event.read fd 8, Event.printf (bytes "the"), Event.write fd (bytes "lazy") 4,
       Event.read fd 8, Event.printf (bytes "dog"), Event.close fd] ∧
    (alice ch fox fd c).i = 9 ∧ (alice ch fox fd c).broke = false ∧
    out (alice ch fox fd c).trace =
      [bytes "The", bytes "brown", bytes "jumps", bytes "the", bytes "dog"] ∧
    stdout (alice ch fox fd c).trace = bytes "The brown jumps the dog " := by
  have hall : ∀ j, j < fox.N → (turnAt ch fox fd c j).brk = false := by
    intro j hj
    have hj9 : j < 9 := hj
    by_cases he : j % 2 = 0
    · rw [(turnAt_even ch fox fd c j he).1]
      obtain ⟨h1, h2⟩ := hR j hj9 he
      simp only [bufAt, h1, h2]
      interval_cases j <;> decide
    · have ho : j % 2 = 1 := by omega
      rw [(turnAt_odd ch fox fd c j ho).1, hW j hj9 ho]
      simp
  obtain ⟨h1, h2, h3⟩ := alice_completes ch fox fd c hall
  have ht : (alice ch fox fd c).trace =
      [Event.read fd 8, Event.printf (bytes "The"), Event.write fd (bytes "quick") 5,
       Event.read fd 8, Event.printf (bytes "brown"), Event.write fd (bytes "fox") 3,
       Event.read fd 8, Event.printf (bytes "jumps"), Event.write fd (bytes "over") 4,
       Event.read fd 8, Event.printf (bytes "the"), Event.write fd (bytes "lazy") 4,
       Event.read fd 8, Event.printf (bytes "dog"), Event.close fd] := by
    rw [h3]; rfl
  refine ⟨ht, h1, h2, ?_, ?_⟩
  · rw [ht]; rfl
  · rw [ht]; rfl

/-- Claim C7 at the faithful peer of the fox table. -/
theorem C7_fox_run_witness :
    (alice (peer fox 42) fox 42 (1, 0)).trace =
      [Event.read 42 8, Event.printf (bytes "The"), Event.write 42 (bytes "quick") 5,
       Event.read 42 8, Event.printf (bytes "brown"), Event.write 42 (bytes "fox") 3,
       Event.read 42 8, Event.printf (bytes "jumps"), Event.write 42 (bytes "over") 4,
       Event.read 42 8, Event.printf (bytes "the"), Event.write 42 (bytes "lazy") 4,
       Event.read 42 8, Event.printf (bytes "dog"), Event.close 42] ∧
    (alice (peer fox 42) fox 42 (1, 0)).i = 9 ∧ (alice (peer fox 42) fox 42 (1, 0)).broke = false ∧
    out (alice (peer fox 42) fox 42 (1, 0)).trace =
      [bytes "The", bytes "brown", bytes "jumps", bytes "the", bytes "dog"] ∧
    stdout (alice (peer fox 42) fox 42 (1, 0)).trace = bytes "The brown jumps the dog " :=
  C7_fox_run (peer fox 42) 42 (1, 0) (by decide) (by decide)

/-- Claim C8.  At a reached even turn `i` whose token is longer than the
buffer, if the `int` result of the `read` is not `-1` (as for every byte count
from 0 to 8) and the buffer equals the first 8 bytes of the token, then the
turn does not leave the loop, whatever follows those 8 bytes in the token:
the whole string of the token is printed right after the `read`, and the loop
counter moves past `i`.  At every even turn the decision depends on the
buffer and the token only through their first `min(l[j], 8)` bytes. -/
theorem C8_long_token_accepted (ch : Channel σ) (t : Tokens) (fd : Int) (c : σ) (i : Nat)
    (hr : Reached ch t fd c i) (he : i % 2 = 0) (hl : sizeofBuf < t.l i)
    (hok : toInt (readAt ch t fd c i).1 ≠ -1)
    (hb : bufAt ch t fd c i = firstBytes (t.s i) sizeofBuf) :
    (turnAt ch t fd c i).brk = false ∧
    (∃ rest, (alice ch t fd c).trace =
      (List.range i).flatMap (passEvents t fd)
        ++ [Event.read fd sizeofBuf, Event.printf (cstr (t.s i))] ++ rest) ∧
    i < (alice ch t fd c).i ∧
    (∀ j, j % 2 = 0 → (turnAt ch t fd c j).brk =
      decide (toInt (readAt ch t fd c j).1 = -1 ∨
        strncmp (firstBytes (bufAt ch t fd c j) (min (t.l j) sizeofBuf))
          (firstBytes (t.s j) (min (t.l j) sizeofBuf)) (min (t.l j) sizeofBuf) ≠ 0)) := by
  have hmin : min (t.l i) sizeofBuf = sizeofBuf := by
    unfold min; split_ifs <;> omega
  have hbrk : (turnAt ch t fd c i).brk = false := by
    rw [(turnAt_even ch t fd c i he).1, hmin, hb,
      strncmp_eq_zero_of_firstBytes _ _ _ (firstBytes_idem _ _)]
    simp [hok]
  refine ⟨hbrk, ?_, alice_passes ch t fd c i hr hbrk, ?_⟩
  · obtain ⟨rest, h⟩ := alice_trace_at_pass ch t fd c i hr hbrk
    refine ⟨rest, ?_⟩
    rw [h]; simp [passEvents, he]
  · intro j hj
    rw [(turnAt_even ch t fd c j hj).1,
      strncmp_congr _ _ _ _ _ (firstBytes_idem _ (bufAt ch t fd c j)).symm
        (firstBytes_idem _ (t.s j)).symm]

/-- Claim C8 at a ten-byte token of which the `read` delivers the first eight
bytes. -/
theorem C8_long_token_accepted_witness :
    (turnAt scripted longFirst 42 ([(8, bytes "abcdefgh")], [1]) 0).brk = false ∧
    (∃ rest, (alice scripted longFirst 42 ([(8, bytes "abcdefgh")], [1])).trace =
      (List.range 0).flatMap (passEvents longFirst 42)
        ++ [Event.read 42 sizeofBuf, Event.printf (cstr (longFirst.s 0))] ++ rest) ∧
    0 < (alice scripted longFirst 42 ([(8, bytes "abcdefgh")], [1])).i ∧
    (∀ j, j % 2 = 0 → (turnAt scripted longFirst 42 ([(8, bytes "abcdefgh")], [1]) j).brk =
      decide (toInt (readAt scripted longFirst 42 ([(8, bytes "abcdefgh")], [1]) j).1 = -1 ∨
        strncmp (firstBytes (bufAt scripted longFirst 42 ([(8, bytes "abcdefgh")], [1]) j)
            (min (longFirst.l j) sizeofBuf))
          (firstBytes (longFirst.s j) (min (longFirst.l j) sizeofBuf))
          (min (longFirst.l j) sizeofBuf) ≠ 0)) :=
  C8_long_token_accepted scripted longFirst 42 ([(8, bytes "abcdefgh")], [1]) 0
    (by decide) (by decide) (by decide) (by decide) (by decide)

/-- Claim C9.  For every token table and every channel, `alice` returns `0`,
whether the loop completed or was left with `break`. -/
theorem C9_returns_zero (ch : Channel σ) (t : Tokens) (fd : Int) (c : σ) :
    (alice ch t fd c).ret = 0 := rfl

/-- Claim C10.  For every token table and every channel, the channel
operations of `alice` are, for some `m ≤ N`, those of the turns
`0, 1, ..., m - 1` in this order, one operation per turn, followed by
`close`: turn `k` is a `read` of at most 8 bytes when `k` is even and a
`write` of token `k` with length `l[k]` when `k` is odd.  The number `m` of
turns carried out is the final loop counter, plus one when the loop was left
with `break`. -/
theorem C10_turn_sequence (ch : Channel σ) (t : Tokens) (fd : Int) (c : σ) :
    ∃ m, m ≤ t.N ∧
      m = (if (alice ch t fd c).broke then (alice ch t fd c).i + 1 else (alice ch t fd c).i) ∧
      ops (alice ch t fd c).trace = (List.range m).map (opOf t fd) ++ [Event.close fd] := by
  obtain ⟨m, h1, h2, h3, h4, h5, h6⟩ := alice_run ch t fd c
  by_cases hm : m < t.N
  · refine ⟨m + 1, hm, ?_, ?_⟩
    · rw [h5, h4]; simp [hm]
    · rw [h6, ops_append, ops_append, ops_passed, ops_close, if_pos hm, ops_failEvents,
        List.range_succ, List.map_append]
      rfl
  · refine ⟨m, h1, ?_, ?_⟩
    · rw [h5, h4]; simp [hm]
    · rw [h6, ops_append, ops_append, ops_passed, ops_close, if_neg hm, ops_nil,
        List.append_nil]

/-- Claim C11.  Two runs of `alice` over the same token table and descriptor,
on two channels of any kind that give the same answers (to each `read` the
same returned value and the same bytes, to each `write` the same returned
value) at every turn the first run reaches, have the same observation stream,
the same channel operations, the same returned value, and indeed the same
trace and the same end of the loop: what `alice` does is a function of the
table and of the answers of the channel alone. -/
theorem C11_same_responses_same_run {τ : Type} (ch1 : Channel σ) (ch2 : Channel τ)
    (t : Tokens) (fd : Int) (c1 : σ) (c2 : τ)
    (hR : ∀ j, j < t.N → (∀ k, k < j → (turnAt ch1 t fd c1 k).brk = false) → j % 2 = 0 →
      (readAt ch1 t fd c1 j).1 = (readAt ch2 t fd c2 j).1 ∧
      (readAt ch1 t fd c1 j).2.1 = (readAt ch2 t fd c2 j).2.1)
    (hW : ∀ j, j < t.N → (∀ k, k < j → (turnAt ch1 t fd c1 k).brk = false) → j % 2 = 1 →
      (writeAt ch1 t fd c1 j).1 = (writeAt ch2 t fd c2 j).1) :
    out (alice ch1 t fd c1).trace = out (alice ch2 t fd c2).trace ∧
      ops (alice ch1 t fd c1).trace = ops (alice ch2 t fd c2).trace ∧
      (alice ch1 t fd c1).ret = (alice ch2 t fd c2).ret ∧
      (alice ch1 t fd c1).trace = (alice ch2 t fd c2).trace ∧
      (alice ch1 t fd c1).i = (alice ch2 t fd c2).i ∧
      (alice ch1 t fd c1).broke = (alice ch2 t fd c2).broke := by
  have h : ∀ j, Reached ch1 t fd c1 j →
      (turnAt ch2 t fd c2 j).brk = (turnAt ch1 t fd c1 j).brk := by
    intro j hj
    by_cases he : j % 2 = 0
    · obtain ⟨e1, e2⟩ := hR j hj.1 hj.2 he
      rw [(turnAt_even ch1 t fd c1 j he).1, (turnAt_even ch2 t fd c2 j he).1]
      simp only [bufAt, e1, e2]
    · have ho : j % 2 = 1 := by omega
      rw [(turnAt_odd ch1 t fd c1 j ho).1, (turnAt_odd ch2 t fd c2 j ho).1, hW j hj.1 hj.2 ho]
  obtain ⟨a1, a2, a3⟩ := alice_congr ch1 ch2 t fd c1 c2 h
  exact ⟨by rw [a1], by rw [a1], rfl, a1, a2, a3⟩

/-- Claim C11 at the fox table, run once against the faithful peer and once
against a script of the same answers. -/
theorem C11_same_responses_same_run_witness :
    out (alice (peer fox 42) fox 42 (1, 0)).trace =
        out (alice scripted fox 42
          ([(3, bytes "The"), (5, bytes "brown"), (5, bytes "jumps"), (3, bytes "the"),
            (3, bytes "dog")], [5, 3, 4, 4])).trace ∧
      ops (alice (peer fox 42) fox 42 (1, 0)).trace =
        ops (alice scripted fox 42
          ([(3, bytes "The"), (5, bytes "brown"), (5, bytes "jumps"), (3, bytes "the"),
            (3, bytes "dog")], [5, 3, 4, 4])).trace ∧
      (alice (peer fox 42) fox 42 (1, 0)).ret =
        (alice scripted fox 42
          ([(3, bytes "The"), (5, bytes "brown"), (5, bytes "jumps"), (3, bytes "the"),
            (3, bytes "dog")], [5, 3, 4, 4])).ret ∧
      (alice (peer fox 42) fox 42 (1, 0)).trace =
        (alice scripted fox 42
          ([(3, bytes "The"), (5, bytes "brown"), (5, bytes "jumps"), (3, bytes "the"),
            (3, bytes "dog")], [5, 3, 4, 4])).trace ∧
      (alice (peer fox 42) fox 42 (1, 0)).i =
        (alice scripted fox 42
          ([(3, bytes "The"), (5, bytes "brown"), (5, bytes "jumps"), (3, bytes "the"),
            (3, bytes "dog")], [5, 3, 4, 4])).i ∧
      (alice (peer fox 42) fox 42 (1, 0)).broke =
        (alice scripted fox 42
          ([(3, bytes "The"), (5, bytes "brown"), (5, bytes "jumps"), (3, bytes "the"),
            (3, bytes "dog")], [5, 3, 4, 4])).broke :=
  C11_same_responses_same_run (peer fox 42) scripted fox 42 (1, 0)
    ([(3, bytes "The"), (5, bytes "brown"), (5, bytes "jumps"), (3, bytes "the"),
      (3, bytes "dog")], [5, 3, 4, 4]) (by decide) (by decide)

/-- Claim C12.  The responder, run on the descriptor `fd` over a channel on
which the `write` of every even turn returns the requested length (whatever
the `read` calls return), goes through all `N` turns: turn `j` is the `write`
of token `j` with its bytes and its length `l[j]` when `j` is even and one
`read` when `j` is odd, all on `fd`; hence its `write` calls are exactly the
tokens at the even indices below `N` in increasing order, and its `read`
calls are one for each odd index below `N`. -/
theorem C12_responder_run (ch : Channel σ) (t : Tokens) (fd : Int) (c : σ)
    (hW : ∀ j, j < t.N → j % 2 = 0 → (bobWriteAt ch t fd c j).1 = (t.l j : Nat)) :
    (bob ch t fd c).i = t.N ∧ (bob ch t fd c).broke = false ∧
      (bob ch t fd c).trace = (List.range t.N).map (bobOp t fd) ∧
      writes (bob ch t fd c).trace =
        ((List.range t.N).filter (fun j => j % 2 = 0)).map
          (fun j => Event.write fd (t.s j) (t.l j)) ∧
      reads (bob ch t fd c).trace =
        ((List.range t.N).filter (fun j => j % 2 = 1)).map
          (fun _ => Event.read fd sizeofBuf) := by
  obtain ⟨h1, h2, h3, _⟩ := bobLoop_complete ch t fd c t.N ⟨0, c, [], false⟩ rfl
    (fun j _ hj he => hW j (by simpa using hj) he)
  simp only [Nat.zero_add, List.nil_append, ← List.range_eq_range'] at h1 h2 h3
  have ht : (bob ch t fd c).trace = (List.range t.N).map (bobOp t fd) := h3
  refine ⟨h1, h2, ht, ?_, ?_⟩
  · rw [ht, writes_map_bobOp]
  · rw [ht, reads_map_bobOp]

/-- Claim C12 at the fox table, against the channel of the test of the
responder: five `write` calls, of `The`, `brown`, `jumps`, `the` and `dog`,
alternating with four `read` calls, and all nine turns done. -/
theorem C12_responder_run_witness :
    (bob (peer fox 42) fox 42 (0, 1)).i = 9 ∧ (bob (peer fox 42) fox 42 (0, 1)).broke = false ∧
      (bob (peer fox 42) fox 42 (0, 1)).trace =
        [Event.write 42 (bytes "The") 3, Event.read 42 8, Event.write 42 (bytes "brown") 5,
         Event.read 42 8, Event.write 42 (bytes "jumps") 5, Event.read 42 8,
         Event.write 42 (bytes "the") 3, Event.read 42 8, Event.write 42 (bytes "dog") 3] ∧
      writes (bob (peer fox 42) fox 42 (0, 1)).trace =
        [Event.write 42 (bytes "The") 3, Event.write 42 (bytes "brown") 5,
         Event.write 42 (bytes "jumps") 5, Event.write 42 (bytes "the") 3,
         Event.write 42 (bytes "dog") 3] ∧
      reads (bob (peer fox 42) fox 42 (0, 1)).trace =
        [Event.read 42 8, Event.read 42 8, Event.read 42 8, Event.read 42 8] :=
  C12_responder_run (peer fox 42) fox 42 (0, 1) (by decide)

/-- Claim C13.  At a reached even turn `i` whose token holds no NUL among its
`l[i]` bytes, a `read` that stores fewer than `min(l[i], 8)` bytes (none at
all included; the token is then not empty) ends the loop at turn `i`, whatever
the channel did at the earlier turns: the buffer was cleared, so a NUL stands
where the token has none.  Token `i` is not printed and the next call is
`close`. -/
theorem C13_short_delivery_rejected (ch : Channel σ) (t : Tokens) (fd : Int) (c : σ) (i : Nat)
    (hr : Reached ch t fd c i) (he : i % 2 = 0)
    (hz : ∀ x, x ∈ firstBytes (t.s i) (t.l i) → x ≠ 0)
    (hshort : (readAt ch t fd c i).2.1.length < min (t.l i) sizeofBuf) :
    (alice ch t fd c).i = i ∧ (alice ch t fd c).broke = true ∧
      (alice ch t fd c).trace =
        (List.range i).flatMap (passEvents t fd) ++ [Event.read fd sizeofBuf, Event.close fd] ∧
      out (alice ch t fd c).trace = evenTokens t i := by
  have hn := min_le_right (t.l i) sizeofBuf
  have hn2 : min (t.l i) sizeofBuf ≤ t.l i := by unfold min; split_ifs <;> omega
  have hz2 : ∀ x ∈ firstBytes (t.s i) (min (t.l i) sizeofBuf), x ≠ 0 :=
    fun x hx => hz x (mem_firstBytes_of_le _ _ _ _ hn2 hx)
  have h0 : 0 ∈ firstBytes (bufAt ch t fd c i) (min (t.l i) sizeofBuf) :=
    zero_mem_firstBytes_store _ _ _ hn hshort
  have hne : firstBytes (bufAt ch t fd c i) (min (t.l i) sizeofBuf)
      ≠ firstBytes (t.s i) (min (t.l i) sizeofBuf) := by
    intro heq
    rw [heq] at h0
    exact hz2 0 h0 rfl
  have hb : (turnAt ch t fd c i).brk = true := by
    rw [(turnAt_even ch t fd c i he).1]
    simp [strncmp_ne_zero_of_firstBytes _ _ _ hz2 hne]
  obtain ⟨h1, h2, h3⟩ := alice_stops ch t fd c i hr hb
  have h4 : (alice ch t fd c).trace =
      (List.range i).flatMap (passEvents t fd) ++ [Event.read fd sizeofBuf, Event.close fd] := by
    rw [h3]; simp [failEvents, he]
  refine ⟨h1, h2, h4, ?_⟩
  rw [h4, out_append, out_passed]
  simp [out]

/-- Claim C13 when the `read` of turn 0 delivered `ab`, exactly the bytes that
token 2 expects, and the `read` of turn 2 delivers nothing. -/
theorem C13_short_delivery_rejected_witness :
    (alice scripted (tableOf [bytes "ab", bytes "c", bytes "ab"]) 42
        ([(2, bytes "ab"), (0, [])], [1])).i = 2 ∧
      (alice scripted (tableOf [bytes "ab", bytes "c", bytes "ab"]) 42
        ([(2, bytes "ab"), (0, [])], [1])).broke = true ∧
      (alice scripted (tableOf [bytes "ab", bytes "c", bytes "ab"]) 42
        ([(2, bytes "ab"), (0, [])], [1])).trace =
        (List.range 2).flatMap (passEvents (tableOf [bytes "ab", bytes "c", bytes "ab"]) 42)
          ++ [Event.read 42 sizeofBuf, Event.close 42] ∧
      out (alice scripted (tableOf [bytes "ab", bytes "c", bytes "ab"]) 42
        ([(2, bytes "ab"), (0, [])], [1])).trace =
        evenTokens (tableOf [bytes "ab", bytes "c", bytes "ab"]) 2 :=
  C13_short_delivery_rejected scripted (tableOf [bytes "ab", bytes "c", bytes "ab"]) 42
    ([(2, bytes "ab"), (0, [])], [1]) 2 (by decide) (by decide) (by decide) (by decide)

/-- Claim C14.  Take two runs of `alice` over the same token table, on two
channels of any kind, such that at every turn the first run reaches the two
`read` calls leave the same buffer and return values that are not `-1` once
stored in the `int` (as is every byte count from 0 to 8), and the two `write`
calls return the same value.  Then the channel operations, the observation
stream, the returned value, and indeed the whole trace and the end of the
loop, are the same, whatever the counts returned by the `read` calls.
Moreover, for a token shorter than 8 bytes, a `read` that stores the bytes of
the token followed by any other bytes is accepted. -/
theorem C14_read_count_ignored {τ : Type} (ch1 : Channel σ) (ch2 : Channel τ)
    (t : Tokens) (fd : Int) (c1 : σ) (c2 : τ)
    (hR : ∀ j, j < t.N → (∀ k, k < j → (turnAt ch1 t fd c1 k).brk = false) → j % 2 = 0 →
      toInt (readAt ch1 t fd c1 j).1 ≠ -1 ∧ toInt (readAt ch2 t fd c2 j).1 ≠ -1 ∧
      bufAt ch1 t fd c1 j = bufAt ch2 t fd c2 j)
    (hW : ∀ j, j < t.N → (∀ k, k < j → (turnAt ch1 t fd c1 k).brk = false) → j % 2 = 1 →
      (writeAt ch1 t fd c1 j).1 = (writeAt ch2 t fd c2 j).1) :
    (ops (alice ch1 t fd c1).trace = ops (alice ch2 t fd c2).trace ∧
      out (alice ch1 t fd c1).trace = out (alice ch2 t fd c2).trace ∧
      (alice ch1 t fd c1).ret = (alice ch2 t fd c2).ret ∧
      (alice ch1 t fd c1).trace = (alice ch2 t fd c2).trace ∧
      (alice ch1 t fd c1).i = (alice ch2 t fd c2).i ∧
      (alice ch1 t fd c1).broke = (alice ch2 t fd c2).broke) ∧
    (∀ i extra, i % 2 = 0 → t.l i < sizeofBuf → toInt (readAt ch1 t fd c1 i).1 ≠ -1 →
      (readAt ch1 t fd c1 i).2.1 = firstBytes (t.s i) (t.l i) ++ extra →
      (turnAt ch1 t fd c1 i).brk = false) := by
  constructor
  · have h : ∀ j, Reached ch1 t fd c1 j →
        (turnAt ch2 t fd c2 j).brk = (turnAt ch1 t fd c1 j).brk := by
      intro j hj
      by_cases he : j % 2 = 0
      · obtain ⟨e1, e2, e3⟩ := hR j hj.1 hj.2 he
        rw [(turnAt_even ch1 t fd c1 j he).1, (turnAt_even ch2 t fd c2 j he).1, e3]
        simp [e1, e2]
      · have ho : j % 2 = 1 := by omega
        rw [(turnAt_odd ch1 t fd c1 j ho).1, (turnAt_odd ch2 t fd c2 j ho).1,
          hW j hj.1 hj.2 ho]
    obtain ⟨a1, a2, a3⟩ := alice_congr ch1 ch2 t fd c1 c2 h
    exact ⟨by rw [a1], by rw [a1], rfl, a1, a2, a3⟩
  · intro i extra he hl hok hd
    have hmin : min (t.l i) sizeofBuf = t.l i := by unfold min; rw [if_pos hl]
    have hfb : firstBytes (bufAt ch1 t fd c1 i) (t.l i) = firstBytes (t.s i) (t.l i) := by
      unfold bufAt
      rw [firstBytes_store _ _ _ (by omega), hd,
        firstBytes_append _ _ _ (firstBytes_length _ _)]
    rw [(turnAt_even ch1 t fd c1 i he).1, hmin, strncmp_eq_zero_of_firstBytes _ _ _ hfb]
    simp [hok]

/-- Claim C14 at the fox table, for two scripts that store the same bytes and
return different counts. -/
theorem C14_read_count_ignored_witness :
    (ops (alice scripted fox 42
          ([(3, bytes "The"), (5, bytes "brown"), (5, bytes "jumps"), (3, bytes "the"),
            (3, bytes "dog")], [5, 3, 4, 4])).trace =
        ops (alice scripted fox 42
          ([(0, bytes "The"), (8, bytes "brown"), (1, bytes "jumps"), (7, bytes "the"),
            (2, bytes "dog")], [5, 3, 4, 4])).trace ∧
      out (alice scripted fox 42
          ([(3, bytes "The"), (5, bytes "brown"), (5, bytes "jumps"), (3, bytes "the"),
            (3, bytes "dog")], [5, 3, 4, 4])).trace =
        out (alice scripted fox 42
          ([(0, bytes "The"), (8, bytes "brown"), (1, bytes "jumps"), (7, bytes "the"),
            (2, bytes "dog")], [5, 3, 4, 4])).trace ∧
      (alice scripted fox 42
          ([(3, bytes "The"), (5, bytes "brown"), (5, bytes "jumps"), (3, bytes "the"),
            (3, bytes "dog")], [5, 3, 4, 4])).ret =
        (alice scripted fox 42
          ([(0, bytes "The"), (8, bytes "brown"), (1, bytes "jumps"), (7, bytes "the"),
            (2, bytes "dog")], [5, 3, 4, 4])).ret ∧
      (alice scripted fox 42
          ([(3, bytes "The"), (5, bytes "brown"), (5, bytes "jumps"), (3, bytes "the"),
            (3, bytes "dog")], [5, 3, 4, 4])).trace =
        (alice scripted fox 42
          ([(0, bytes "The"), (8, bytes "brown"), (1, bytes "jumps"), (7, bytes "the"),
            (2, bytes "dog")], [5, 3, 4, 4])).trace ∧
      (alice scripted fox 42
          ([(3, bytes "The"), (5, bytes "brown"), (5, bytes "jumps"), (3, bytes "the"),
            (3, bytes "dog")], [5, 3, 4, 4])).i =
        (alice scripted fox 42
          ([(0, bytes "The"), (8, bytes "brown"), (1, bytes "jumps"), (7, bytes "the"),
            (2, bytes "dog")], [5, 3, 4, 4])).i ∧
      (alice scripted fox 42
          ([(3, bytes "The"), (5, bytes "brown"), (5, bytes "jumps"), (3, bytes "the"),
            (3, bytes "dog")], [5, 3, 4, 4])).broke =
        (alice scripted fox 42
          ([(0, bytes "The"), (8, bytes "brown"), (1, bytes "jumps"), (7, bytes "the"),
            (2, bytes "dog")], [5, 3, 4, 4])).broke) ∧
    (∀ i extra, i % 2 = 0 → fox.l i < sizeofBuf →
      toInt (readAt scripted fox 42
        ([(3, bytes "The"), (5, bytes "brown"), (5, bytes "jumps"), (3, bytes "the"),
          (3, bytes "dog")], [5, 3, 4, 4]) i).1 ≠ -1 →
      (readAt scripted fox 42
        ([(3, bytes "The"), (5, bytes "brown"), (5, bytes "jumps"), (3, bytes "the"),
          (3, bytes "dog")], [5, 3, 4, 4]) i).2.1 = firstBytes (fox.s i) (fox.l i) ++ extra →
      (turnAt scripted fox 42
        ([(3, bytes "The"), (5, bytes "brown"), (5, bytes "jumps"), (3, bytes "the"),
          (3, bytes "dog")], [5, 3, 4, 4]) i).brk = false) :=
  C14_read_count_ignored scripted scripted fox 42
    ([(3, bytes "The"), (5, bytes "brown"), (5, bytes "jumps"), (3, bytes "the"),
      (3, bytes "dog")], [5, 3, 4, 4])
    ([(0, bytes "The"), (8, bytes "brown"), (1, bytes "jumps"), (7, bytes "the"),
      (2, bytes "dog")], [5, 3, 4, 4]) (by decide) (by decide)

end Exchange
